import Mathlib

/-!
Verification development for the SSO-Simplifier pipeline: a scanner that
finds Java classes extending ServerSideObject, extracts their public
method and field signatures from whitespace-normalized text, strips
nested private classes by depth-counted brace matching, appends a fixed
superclass method list, sorts the resulting units by class name, and
regenerates simplified stub source files with default return literals.

Strings are modelled as `List Char`; the Go code indexes byte strings,
which agrees with character indexing on the ASCII texts manipulated here.
Go slice/index arithmetic is `Nat` arithmetic (all indices involved are
non-negative).  Loops are modelled by fuel-bounded recursion where the
fuel provably suffices, so that every definition stays executable.
-/

set_option maxRecDepth 100000

namespace SSO

/-- Whitespace as decided by Go's unicode.IsSpace, used by strings.Fields
and strings.TrimSpace: the six ASCII space characters, NEL, NBSP, and the
Unicode White_Space code points. -/
def isUnicodeWS (c : Char) : Bool :=
  c = ' ' || c = '\t' || c = '\n' || c = '\u000B' || c = '\u000C' || c = '\r' ||
  c.val = 0x85 || c.val = 0xA0 || c.val = 0x1680 ||
  (0x2000 ≤ c.val && c.val ≤ 0x200A) ||
  c.val = 0x2028 || c.val = 0x2029 || c.val = 0x202F || c.val = 0x205F || c.val = 0x3000

/-- Whitespace as matched by the regexp escape sequence in Go's RE2
syntax (the class containing tab, newline, form feed, carriage return and
space). -/
def isRxWS (c : Char) : Bool :=
  c = '\t' || c = '\n' || c = '\u000C' || c = '\r' || c = ' '

/-- Character class of the regex identifier tokens: alphanumerics,
underscore and dollar. -/
def isIdentChar (c : Char) : Bool :=
  c.isAlpha || c.isDigit || c = '_' || c = '$'

/-- Character class for method return types: identifier characters plus
angle brackets and square brackets (tolerating generic/array syntax). -/
def isTypeChar (c : Char) : Bool :=
  isIdentChar c || c = '<' || c = '>' || c = '[' || c = ']'

/-- Character class for field types: identifier characters plus square
brackets. -/
def isFieldTypeChar (c : Char) : Bool :=
  isIdentChar c || c = '[' || c = ']'

/-- Character class of the package pattern: alphanumerics, underscore and
dot. -/
def isPackageChar (c : Char) : Bool :=
  c.isAlpha || c.isDigit || c = '_' || c = '.'

/-- strings.Fields helper: accumulates the current word (reversed) while
splitting the input on runs of Unicode whitespace. -/
def fieldsGo (acc : List Char) : List Char → List (List Char)
  | [] => if acc = [] then [] else [acc.reverse]
  | c :: rest =>
    if isUnicodeWS c then
      if acc = [] then fieldsGo [] rest else acc.reverse :: fieldsGo [] rest
    else
      fieldsGo (c :: acc) rest

/-- Go strings.Fields: split around runs of whitespace, no empty pieces. -/
def fieldsOf (l : List Char) : List (List Char) :=
  fieldsGo [] l

/-- Go strings.Join(strings.Fields(s), " "): the text normalizer that
collapses every whitespace run to a single space. -/
def normalize (l : List Char) : List Char :=
  List.intercalate [' '] (fieldsOf l)

/-- Go strings.TrimSpace: drop leading and trailing Unicode whitespace. -/
def trimSpace (l : List Char) : List Char :=
  ((l.dropWhile isUnicodeWS).reverse.dropWhile isUnicodeWS).reverse

/-- Go strings.Split with a one-character separator: always returns at
least one (possibly empty) piece. -/
def splitGo (sep : Char) (acc : List Char) : List Char → List (List Char)
  | [] => [acc.reverse]
  | c :: rest =>
    if c = sep then acc.reverse :: splitGo sep [] rest
    else splitGo sep (c :: acc) rest

/-- Split a character list on every occurrence of the separator. -/
def splitOnChar (sep : Char) (l : List Char) : List (List Char) :=
  splitGo sep [] l

/-- Go strings.Index for a literal needle: index of the leftmost
occurrence (strings.Index returns 0 for an empty needle). -/
def findSub (needle : List Char) : List Char → Option Nat
  | [] => if needle = [] then some 0 else none
  | c :: rest =>
    if needle.isPrefixOf (c :: rest) then some 0
    else (findSub needle rest).map (· + 1)

/-- Go strings.LastIndex for the one-character needle used by the class
locator. -/
def lastIdxOf (c : Char) (l : List Char) : Option Nat :=
  match findSub [c] l.reverse with
  | some i => some (l.length - 1 - i)
  | none => none

/-- A Java method parameter: type token and name token
(utils.Parameter). -/
structure Parameter where
  Typ : String   -- the source field is named Type, a reserved word in Lean
  Name : String
deriving DecidableEq, Repr

/-- A public Java method signature broken into elements
(utils.PublicMethod). -/
structure PublicMethod where
  AccessModifier : String
  ReturnType : String
  MethodName : String
  Parameters : List Parameter
deriving DecidableEq, Repr

/-- Modelled from the spec: the FieldSignature record (spec section 3) —
a type token and a field name.  The scanner constructs values of this
type (PublicField) but its declaration is not among the provided source
files. -/
structure PublicField where
  Typ : String   -- the source field is named Type, a reserved word in Lean
  Name : String
deriving DecidableEq, Repr

/-- A discovered qualifying class (utils.ServerSideObject), including the
DeclaredFields sequence filled in by the scanner's field extraction. -/
structure ServerSideObject where
  FilePath : String
  ClassName : String
  PackageLine : String
  DeclaredMethods : List PublicMethod
  DeclaredFields : List PublicField
deriving DecidableEq, Repr

/-- The allowed-type table (utils.allowedTypes): allowed parameter and
return types mapped to their default return literals.  The Go map is
only ever used for lookups, so a function model is exact.  Note the
table has no entry for the return type void. -/
def allowedTypes : String → Option String
  | "boolean" => some "false"
  | "byte"    => some "0"
  | "char"    => some "\x27\\0\x27"
  | "short"   => some "0"
  | "int"     => some "0"
  | "long"    => some "0L"
  | "float"   => some "0.0f"
  | "double"  => some "0.0"
  | "String"  => some "null"
  | _         => none

/-- The fixed superclass method list (utils.SuperclassMethods): the
public methods every qualifying class inherits from ServerSideObject. -/
def SuperclassMethods : List PublicMethod :=
  [{ AccessModifier := "public", ReturnType := "String",
     MethodName := "getLastError", Parameters := [] }]

/-- A token is a skippable parameter modifier when it equals final or
starts with an at-sign (an annotation). -/
def isModTok (p : List Char) : Bool :=
  p = "final".toList || (match p with | '@' :: _ => true | _ => false)

/-- The modifier-skipping loop of extractParameters: j advances over
modifier tokens while j < len(parts)-2.  Fuel-bounded model of the Go
for-loop; fuel = parts.length always suffices since j increases by one
per step and stays below parts.length. -/
def skipMods (parts : List (List Char)) : Nat → Nat → Nat
  | j, 0 => j
  | j, fuel + 1 =>
    if j < parts.length - 2 then
      if isModTok (parts.getD j []) then skipMods parts (j + 1) fuel else j
    else j

/-- utils.extractParameters (the current generation, with modifier
skipping): split the parameter list on commas, tokenize each piece on
whitespace, keep pieces with at least two tokens, skip leading modifier
tokens while more than two tokens remain, and take the next two tokens
as type and name. -/
def extractParameters (paramString : List Char) : List Parameter :=
  if paramString = [] then []
  else
    (splitOnChar ',' paramString).filterMap fun pair =>
      let parts := fieldsOf (trimSpace pair)
      if 2 ≤ parts.length then
        let j := skipMods parts 0 parts.length
        some { Typ := String.mk (parts.getD j []),
               Name := String.mk (parts.getD (j + 1) []) }
      else none

/-- utils.areParametersValid: every parameter type must be in the
allowed-type table. -/
def areParametersValid (parameters : List Parameter) : Bool :=
  parameters.all fun param => (allowedTypes param.Typ).isSome

/-- The brace-matching scan of removePrivateClasses: starting with the
given open-brace count, walk the remaining characters updating the count
at every brace and stop once it reaches zero; return the number of
characters consumed, or none when the string is exhausted first. -/
def braceScan : Nat → List Char → Option Nat
  | 0, _ => some 0
  | _ + 1, [] => none
  | count + 1, ch :: rest =>
    let count' := if ch = '{' then count + 2 else if ch = '}' then count else count + 1
    (braceScan count' rest).map (· + 1)

/-- The needle located by the private-scope stripper. -/
def privateClassLit : List Char :=
  "private class ".toList

/-- One iteration of the removePrivateClasses loop: locate the next
occurrence of the needle, the following opening brace, and the
depth-matched closing brace; remove the spanned text.  Returns none in
each of the three break cases of the Go loop (no occurrence, no opening
brace, scan exhausted while unbalanced). -/
def removeStep (input : List Char) : Option (List Char) :=
  match findSub privateClassLit input with
  | none => none
  | some startIdx =>
    match findSub ['{'] (input.drop startIdx) with
    | none => none
    | some rel =>
      let braceIdx := startIdx + rel
      match braceScan 1 (input.drop (braceIdx + 1)) with
      | none => none
      | some consumed => some (input.take startIdx ++ input.drop (braceIdx + 1 + consumed))

/-- Fuel-bounded model of the removePrivateClasses for-loop; each
successful step strictly shortens the string, so fuel equal to the
input length always suffices. -/
def removeLoop : Nat → List Char → List Char
  | 0, l => l
  | fuel + 1, l =>
    match removeStep l with
    | none => l
    | some out => removeLoop fuel out

/-- utils.removePrivateClasses: repeatedly delete private class
definitions (with nested braces) from the input. -/
def removePrivateClasses (input : List Char) : List Char :=
  removeLoop input.length input

/-- The class-declaration matcher at a fixed position, for the pattern
public class [identifier]+ extends ServerSideObject.  The identifier
class excludes the space that must follow it, so the greedy run is
forced and a single maximal-run check is exact for this regex. -/
def matchClassAt (l : List Char) : Bool :=
  ("public class ".toList).isPrefixOf l &&
  (let r := l.drop 13
   let run := r.takeWhile isIdentChar
   decide (1 ≤ run.length) &&
     (" extends ServerSideObject".toList).isPrefixOf (r.drop run.length))

/-- Go classPattern.MatchString: does any position of the text start a
match of the class-declaration pattern. -/
def classPatternMatches (l : List Char) : Bool :=
  l.tails.any matchClassAt

/-- The package-declaration matcher at a fixed position, for the pattern
package ([a-zA-Z0-9_.]+); with its capture group.  The dotted-identifier
class excludes the semicolon that must follow, so the greedy run is
forced and a maximal-run check is exact. -/
def matchPackageAt (l : List Char) : Option String :=
  if ("package ".toList).isPrefixOf l then
    let r := l.drop 8
    let run := r.takeWhile isPackageChar
    if run.length = 0 then none
    else
      match r.drop run.length with
      | ';' :: _ => some (String.mk run)
      | _ => none
  else none

/-- Go packagePattern.FindStringSubmatch: capture group of the leftmost
match, if any. -/
def findPackage : List Char → Option String
  | [] => none
  | l@(_ :: rest) =>
    match matchPackageAt l with
    | some s => some s
    | none =>
      match l with
      | _ => findPackage rest

/-- The method-declaration matcher at a fixed position, for the method
pattern with capture groups (return type, method name, parameter list).
Every quantified piece of that regex is forced to its maximal greedy
extent because each character class is disjoint from the characters the
following piece must start with, so this single pass is exact.  Returns
the three capture groups and the total length of the match. -/
def matchMethodAt (l : List Char) : Option ((String × String × List Char) × Nat) :=
  if ("public".toList).isPrefixOf l then
    let r0 := l.drop 6
    let w1 := r0.takeWhile isRxWS
    if w1.length = 0 then none else
    let r1 := r0.drop w1.length
    let t := r1.takeWhile isTypeChar
    if t.length = 0 then none else
    let r2 := r1.drop t.length
    let w2 := r2.takeWhile isRxWS
    if w2.length = 0 then none else
    let r3 := r2.drop w2.length
    let nm := r3.takeWhile isIdentChar
    if nm.length = 0 then none else
    let r4 := r3.drop nm.length
    let w3 := r4.takeWhile isRxWS
    match r4.drop w3.length with
    | '(' :: r6 =>
      let ps := r6.takeWhile (fun c => ¬ c = ')')
      (match r6.drop ps.length with
       | ')' :: _ =>
         some ((String.mk t, String.mk nm, ps),
               6 + w1.length + t.length + w2.length + nm.length + w3.length +
                 1 + ps.length + 1)
       | _ => none)
    | _ => none
  else none

/-- Go methodPattern.FindAllStringSubmatch: leftmost non-overlapping
matches; after a match the search resumes at its end.  Fuel-bounded
scan; every match consumes at least one character, so fuel equal to the
text length suffices. -/
def findAllMethodsAux : Nat → List Char → List (String × String × List Char)
  | 0, _ => []
  | fuel + 1, l =>
    match l with
    | [] => []
    | _ :: rest =>
      match matchMethodAt l with
      | some (g, len) => g :: findAllMethodsAux fuel (l.drop len)
      | none => findAllMethodsAux fuel rest

/-- All method-pattern matches of a text, leftmost and non-overlapping. -/
def findAllMethods (l : List Char) : List (String × String × List Char) :=
  findAllMethodsAux l.length l

/-- The field-modifier alternation static|final|transient|volatile; the
keywords start with pairwise distinct letters, so at most one branch can
match and the preference order is immaterial. -/
def kwCheck (l : List Char) : Option Nat :=
  if ("static".toList).isPrefixOf l then some 6
  else if ("final".toList).isPrefixOf l then some 5
  else if ("transient".toList).isPrefixOf l then some 9
  else if ("volatile".toList).isPrefixOf l then some 8
  else none

/-- The tail of the field pattern after the modifier loop: whitespace,
captured type run, whitespace, captured name run, an optional
initializer (equals sign followed by anything up to a semicolon), and
the final semicolon.  Greedy extents are forced by disjointness except
inside the initializer, where the two overlapping pieces jointly consume
exactly up to the first semicolon. -/
def fieldTailAt (l : List Char) : Option ((String × String) × Nat) :=
  let w1 := l.takeWhile isRxWS
  if w1.length = 0 then none else
  let r1 := l.drop w1.length
  let t := r1.takeWhile isFieldTypeChar
  if t.length = 0 then none else
  let r2 := r1.drop t.length
  let w2 := r2.takeWhile isRxWS
  if w2.length = 0 then none else
  let r3 := r2.drop w2.length
  let nm := r3.takeWhile isIdentChar
  if nm.length = 0 then none else
  let r4 := r3.drop nm.length
  let withValue :=
    let w3 := r4.takeWhile isRxWS
    match r4.drop w3.length with
    | '=' :: r5 =>
      let v := r5.takeWhile (fun c => ¬ c = ';')
      if v.length = 0 then none
      else
        (match r5.drop v.length with
         | ';' :: _ => some (w3.length + 1 + v.length + 1)
         | _ => none)
    | _ => none
  match withValue with
  | some k => some ((String.mk t, String.mk nm),
                    w1.length + t.length + w2.length + nm.length + k)
  | none =>
    match r4 with
    | ';' :: _ => some ((String.mk t, String.mk nm),
                        w1.length + t.length + w2.length + nm.length + 1)
    | _ => none

/-- The field-declaration matcher at a fixed position: the literal
public, then the greedy modifier loop with backtracking over the number
of modifier items (deeper matches preferred, falling back to the tail at
each level), mirroring the preference order of the regex. -/
def fieldFromMods : Nat → List Char → Option ((String × String) × Nat)
  | 0, l => fieldTailAt l
  | fuel + 1, l =>
    let more :=
      let w := l.takeWhile isRxWS
      if w.length = 0 then none
      else
        match kwCheck (l.drop w.length) with
        | some k =>
          (match fieldFromMods fuel (l.drop (w.length + k)) with
           | some (g, len) => some (g, w.length + k + len)
           | none => none)
        | none => none
    match more with
    | some r => some r
    | none => fieldTailAt l

/-- The full field matcher at a position: returns the two capture groups
(type, name) and the match length. -/
def matchFieldAt (l : List Char) : Option ((String × String) × Nat) :=
  if ("public".toList).isPrefixOf l then
    match fieldFromMods (l.drop 6).length (l.drop 6) with
    | some (g, len) => some (g, 6 + len)
    | none => none
  else none

/-- Go publicFieldPattern.FindAllStringSubmatch: leftmost non-overlapping
matches, resuming after each match end. -/
def findAllFieldsAux : Nat → List Char → List (String × String)
  | 0, _ => []
  | fuel + 1, l =>
    match l with
    | [] => []
    | _ :: rest =>
      match matchFieldAt l with
      | some (g, len) => g :: findAllFieldsAux fuel (l.drop len)
      | none => findAllFieldsAux fuel rest

/-- All field-pattern matches of a text. -/
def findAllFields (l : List Char) : List (String × String) :=
  findAllFieldsAux l.length l

/-- The method-building loop of ScanForSSOs over the regex matches: a
match is kept only when its return type is in the allowed-type table and
all of its extracted parameters have allowed types; kept matches become
public method records in order. -/
def methodsOfMatches (ms : List (String × String × List Char)) : List PublicMethod :=
  ms.filterMap fun g =>
    if (allowedTypes g.1).isSome then
      let parameters := extractParameters g.2.2
      if areParametersValid parameters then
        some { AccessModifier := "public", ReturnType := g.1,
               MethodName := g.2.1, Parameters := parameters }
      else none
    else none

/-- The class-locating and stripping stage of ScanForSSOs for one file:
require the .java suffix, normalize, require a qualifying class
declaration, slice from the class definition to the last closing brace,
and strip nested private classes.  none in every case where the Go walk
callback skips the file. -/
def classContentOf (fileName content : List Char) : Option (List Char) :=
  if (".java".toList).isSuffixOf fileName then
    let n := normalize content
    if classPatternMatches n then
      let className := fileName.take (fileName.length - 5)
      match findSub ("class ".toList ++ className ++ " extends ServerSideObject".toList) n,
            lastIdxOf '}' n with
      | some classStart, some classEnd =>
        if classStart ≥ classEnd then none
        else some (removePrivateClasses ((n.take (classEnd + 1)).drop classStart))
      | _, _ => none
    else none
  else none

/-- The per-file body of the ScanForSSOs walk callback: on a qualifying
file, build the ServerSideObject from the package capture, the file base
name, the filtered method matches plus the superclass methods, and the
field matches. -/
def processFile (path : String) (fileName content : List Char) : Option ServerSideObject :=
  (classContentOf fileName content).map fun classContent =>
    { FilePath := path,
      ClassName := String.mk (fileName.take (fileName.length - 5)),
      PackageLine := (findPackage (normalize content)).getD "",
      DeclaredMethods := methodsOfMatches (findAllMethods classContent) ++ SuperclassMethods,
      DeclaredFields := (findAllFields classContent).map fun g =>
        { Typ := g.1, Name := g.2 } }

/-- Lexicographic comparison of character sequences, the order Go's
string comparison computes byte-wise (UTF-8 byte order coincides with
code-point order). -/
def listLe : List Char → List Char → Bool
  | [], _ => true
  | _ :: _, [] => false
  | a :: as, b :: bs => if a < b then true else if b < a then false else listLe as bs

theorem listLe_total : ∀ x y : List Char, listLe x y = true ∨ listLe y x = true := by
  intro x
  induction x with
  | nil => intro y; exact Or.inl rfl
  | cons a as ih =>
    intro y
    cases y with
    | nil => exact Or.inr rfl
    | cons b bs =>
      rcases lt_trichotomy a b with h | h | h
      · left
        simp [listLe, h]
      · subst h
        rcases ih bs with h' | h'
        · left
          simp [listLe, lt_irrefl, h']
        · right
          simp [listLe, lt_irrefl, h']
      · right
        simp [listLe, h]

theorem listLe_trans :
    ∀ x y z : List Char, listLe x y = true → listLe y z = true →
      listLe x z = true := by
  intro x
  induction x with
  | nil => intro y z _ _; rfl
  | cons a as ih =>
    intro y z hxy hyz
    cases y with
    | nil => exact absurd hxy (by simp [listLe])
    | cons b bs =>
      cases z with
      | nil => exact absurd hyz (by simp [listLe])
      | cons c cs =>
        simp only [listLe] at hxy hyz ⊢
        rcases lt_trichotomy a b with h1 | h1 | h1
        · rcases lt_trichotomy b c with h2 | h2 | h2
          · simp [lt_trans h1 h2]
          · subst h2
            simp [h1]
          · rw [if_neg (lt_asymm h2), if_pos h2] at hyz
            exact absurd hyz (by simp)
        · subst h1
          rw [if_neg (lt_irrefl a), if_neg (lt_irrefl a)] at hxy
          rcases lt_trichotomy a c with h2 | h2 | h2
          · simp [h2]
          · subst h2
            rw [if_neg (lt_irrefl a), if_neg (lt_irrefl a)] at hyz ⊢
            exact ih bs cs hxy hyz
          · rw [if_neg (lt_asymm h2), if_pos h2] at hyz
            exact absurd hyz (by simp)
        · rw [if_neg (lt_asymm h1), if_pos h1] at hxy
          exact absurd hxy (by simp)

theorem listLe_antisymm :
    ∀ x y : List Char, listLe x y = true → listLe y x = true → x = y := by
  intro x
  induction x with
  | nil =>
    intro y _ hyx
    cases y with
    | nil => rfl
    | cons b bs => exact absurd hyx (by simp [listLe])
  | cons a as ih =>
    intro y hxy hyx
    cases y with
    | nil => exact absurd hxy (by simp [listLe])
    | cons b bs =>
      simp only [listLe] at hxy hyx
      rcases lt_trichotomy a b with h | h | h
      · rw [if_neg (lt_asymm h), if_pos h] at hyx
        exact absurd hyx (by simp)
      · subst h
        rw [if_neg (lt_irrefl a), if_neg (lt_irrefl a)] at hxy hyx
        rw [ih bs hxy hyx]
      · rw [if_neg (lt_asymm h), if_pos h] at hxy
        exact absurd hxy (by simp)

/-- Ordering used by sort.Sort via ServerSideObjectList.Less: compare
units lexicographically by class name. -/
def byClassName (a b : ServerSideObject) : Prop :=
  listLe a.ClassName.data b.ClassName.data = true

instance : DecidableRel byClassName := fun a b =>
  inferInstanceAs (Decidable (listLe a.ClassName.data b.ClassName.data = true))

instance : IsTotal ServerSideObject byClassName :=
  ⟨fun a b => listLe_total a.ClassName.data b.ClassName.data⟩

instance : IsTrans ServerSideObject byClassName :=
  ⟨fun _ _ _ hab hbc => listLe_trans _ _ _ hab hbc⟩

/-- ScanForSSOs over an abstract directory traversal: the traversal
yields (path, base name, content) triples in visit order; qualifying
files become units, and the collected list is sorted by class name
before being returned.  Go's sort.Sort is modelled by insertion sort,
which agrees with it on the sortedness and permutation properties and is
the very algorithm sort.Sort applies to the short slices (fewer than
twelve units) used in the concrete theorems below. -/
def scanForSSOs (files : List (String × List Char × List Char)) : List ServerSideObject :=
  List.insertionSort byClassName
    (files.filterMap fun f => processFile f.1 f.2.1 f.2.2)

/-- The parameter-list rendering loop of WriteSimplifiedSSO after the
first parameter: each further parameter is preceded by a comma. -/
def renderParamsTail : List Parameter → String
  | [] => ""
  | p :: rest => ", " ++ p.Typ ++ " " ++ p.Name ++ renderParamsTail rest

/-- The parameter-list rendering loop of WriteSimplifiedSSO: parameters
joined by commas, type then name. -/
def renderParams : List Parameter → String
  | [] => ""
  | p :: rest => p.Typ ++ " " ++ p.Name ++ renderParamsTail rest

/-- One stub method as written by WriteSimplifiedSSO: the signature
line, a return statement with the default literal from the allowed-type
table when the return type is not void (falling back to null for
unsupported types), or no return statement for void, and the closing
brace. -/
def renderMethod (method : PublicMethod) : String :=
  "    public " ++ method.ReturnType ++ " " ++ method.MethodName ++ "(" ++
    renderParams method.Parameters ++ ") \x7b\n" ++
  (if method.ReturnType ≠ "void" then
     "        return " ++
       (match allowedTypes method.ReturnType with
        | some defaultValue => defaultValue ++ ";"
        | none => "null;") ++ "\n"
   else "") ++
  "    \x7d\n\n"

/-- The method loop of WriteSimplifiedSSO: stubs in declaration order. -/
def renderMethods : List PublicMethod → String
  | [] => ""
  | m :: rest => renderMethod m ++ renderMethods rest

/-- utils.WriteSimplifiedSSO as a pure function from a unit to the byte
content written to outputDir/ClassName.java: package statement, class
header, empty public constructor, the method stubs, and the closing
brace. -/
def writeSimplifiedSSO (sso : ServerSideObject) : String :=
  "package " ++ sso.PackageLine ++ ";\n\n" ++
  "public class " ++ sso.ClassName ++ " \x7b\n\n" ++
  "    public " ++ sso.ClassName ++ "() \x7b\x7d\n\n" ++
  renderMethods sso.DeclaredMethods ++
  "\x7d\n"

/-! ### Lemmas about the private-scope stripper -/

theorem findSub_lt_length {needle : List Char} (hne : needle ≠ []) :
    ∀ {l : List Char} {i : Nat}, findSub needle l = some i → i < l.length := by
  intro l
  induction l with
  | nil =>
    intro i h
    simp only [findSub, if_neg hne] at h
    exact Option.noConfusion h
  | cons c rest ih =>
    intro i h
    simp only [findSub] at h
    by_cases hp : needle.isPrefixOf (c :: rest)
    · rw [if_pos hp] at h
      cases h
      simp
    · rw [if_neg hp] at h
      rcases Option.map_eq_some'.mp h with ⟨i', hi', rfl⟩
      have := ih hi'
      simp only [List.length_cons]
      omega

theorem privateClassLit_ne_nil : privateClassLit ≠ [] := by decide

theorem removeStep_length {l out : List Char} (h : removeStep l = some out) :
    out.length < l.length := by
  unfold removeStep at h
  split at h
  · exact Option.noConfusion h
  rename_i s h1
  split at h
  · exact Option.noConfusion h
  rename_i rel h2
  dsimp only at h
  split at h
  · exact Option.noConfusion h
  rename_i k h3
  have hs : s < l.length := findSub_lt_length privateClassLit_ne_nil h1
  have hout : l.take s ++ l.drop (s + rel + 1 + k) = out := Option.some.inj h
  subst hout
  have h4 : (l.take s).length = s := by
    rw [List.length_take]
    omega
  rw [List.length_append, h4, List.length_drop]
  omega

theorem removeLoop_nil : ∀ fuel, removeLoop fuel [] = [] := by
  intro fuel
  cases fuel with
  | zero => rfl
  | succ n =>
    have h : removeStep [] = none := by decide
    simp [removeLoop, h]

theorem removeLoop_congr :
    ∀ (fuel₁ fuel₂ : Nat) (l : List Char), l.length ≤ fuel₁ → l.length ≤ fuel₂ →
      removeLoop fuel₁ l = removeLoop fuel₂ l := by
  intro fuel₁
  induction fuel₁ with
  | zero =>
    intro fuel₂ l h1 _
    have : l = [] := List.length_eq_zero.mp (Nat.le_zero.mp h1)
    subst this
    rw [removeLoop_nil, removeLoop_nil]
  | succ n ih =>
    intro fuel₂ l h1 h2
    rcases hs : removeStep l with _ | out
    · cases fuel₂ with
      | zero =>
        have : l = [] := List.length_eq_zero.mp (Nat.le_zero.mp h2)
        subst this
        rw [removeLoop_nil, removeLoop_nil]
      | succ m => simp [removeLoop, hs]
    · have hlt := removeStep_length hs
      cases fuel₂ with
      | zero => omega
      | succ m =>
        simp only [removeLoop, hs]
        exact ih m out (by omega) (by omega)

/-- C8: the private-scope stripper terminates on every input: the loop
result is independent of any sufficiently large fuel bound (equivalently,
the Go loop reaches a break in at most length-many iterations because
every removal strictly shortens the text); it stops and returns the text
as processed so far whenever the needle is absent, and in every break
case of the step (including a brace scan that exhausts the string
unbalanced), without raising an error; and every non-breaking iteration
strictly decreases the length, the loop's termination measure. -/
theorem stripper_terminates (l : List Char) :
    (∀ fuel, l.length ≤ fuel → removeLoop fuel l = removePrivateClasses l) ∧
    (findSub privateClassLit l = none → removePrivateClasses l = l) ∧
    (removeStep l = none → removePrivateClasses l = l) ∧
    (∀ out, removeStep l = some out →
       out.length < l.length ∧ removePrivateClasses l = removePrivateClasses out) := by
  have hnone : removeStep l = none → removePrivateClasses l = l := by
    intro h
    unfold removePrivateClasses
    cases hl : l.length with
    | zero => rfl
    | succ n => simp [removeLoop, h]
  refine ⟨?_, ?_, hnone, ?_⟩
  · intro fuel hf
    exact removeLoop_congr fuel l.length l hf le_rfl
  · intro h
    apply hnone
    unfold removeStep
    rw [h]
  · intro out hs
    have hlt := removeStep_length hs
    refine ⟨hlt, ?_⟩
    unfold removePrivateClasses
    rcases hl : l.length with _ | n
    · omega
    · simp only [removeLoop, hs]
      exact removeLoop_congr n out.length out (by omega) le_rfl

theorem stripper_terminates_witness :
    (removeLoop 7 "xyz".toList = removePrivateClasses "xyz".toList) ∧
    (removePrivateClasses "xyz".toList = "xyz".toList) := by
  refine ⟨(stripper_terminates "xyz".toList).1 7 (by decide), ?_⟩
  exact (stripper_terminates "xyz".toList).2.1 (by decide)

/-! ### Lemmas about parameter extraction (claim C2) -/

/-- The parameter-extraction algorithm exactly as the spec words it:
all leading modifier tokens are skipped, and a piece with fewer than two
tokens left after skipping is dropped. -/
def extractParametersClaimed (paramString : List Char) : List Parameter :=
  if paramString = [] then []
  else
    (splitOnChar ',' paramString).filterMap fun pair =>
      match (fieldsOf (trimSpace pair)).dropWhile isModTok with
      | t :: n :: _ => some { Typ := String.mk t, Name := String.mk n }
      | _ => none

/-- The counterexample to C2 as stated: on the parameter piece final x,
the code takes final as the type and x as the name, whereas the spec
text would skip the final token, find fewer than two tokens remaining,
and drop the piece. -/
theorem extractParameters_final_x_counterexample :
    extractParameters "final x".toList = [{ Typ := "final", Name := "x" }] ∧
    extractParametersClaimed "final x".toList = [] := by
  constructor <;> decide

theorem skipMods_eq (parts : List (List Char)) :
    ∀ (fuel j : Nat), parts.length - 2 - j ≤ fuel →
      skipMods parts j fuel =
        j + (((parts.drop j).take (parts.length - 2 - j)).takeWhile isModTok).length := by
  intro fuel
  induction fuel with
  | zero =>
    intro j h
    have h0 : parts.length - 2 - j = 0 := Nat.le_zero.mp h
    simp [skipMods, h0]
  | succ n ih =>
    intro j h
    by_cases hj : j < parts.length - 2
    · have hjlen : j < parts.length := by omega
      have hdrop : parts.drop j = parts[j] :: parts.drop (j + 1) :=
        List.drop_eq_getElem_cons hjlen
      have htake : parts.length - 2 - j = (parts.length - 2 - (j + 1)) + 1 := by omega
      have hgetD : parts.getD j [] = parts[j] := List.getD_eq_getElem parts [] hjlen
      by_cases hm : isModTok (parts.getD j []) = true
      · have hstep : skipMods parts j (n + 1) = skipMods parts (j + 1) n := by
          simp only [skipMods]
          rw [if_pos hj, if_pos hm]
        rw [hstep, ih (j + 1) (by omega), hdrop, htake, List.take_succ_cons,
            List.takeWhile_cons]
        rw [hgetD] at hm
        rw [if_pos hm]
        simp only [List.length_cons]
        omega
      · have hstep : skipMods parts j (n + 1) = j := by
          simp only [skipMods]
          rw [if_pos hj, if_neg hm]
        rw [hstep, hdrop, htake, List.take_succ_cons, List.takeWhile_cons]
        rw [hgetD] at hm
        rw [if_neg hm]
        simp
    · have h0 : parts.length - 2 - j = 0 := by omega
      simp [skipMods, hj, h0]

/-- The parameter-extraction algorithm as amended by the counterexample:
modifier tokens are skipped only while more than two tokens remain
(never the final two), and a piece is dropped only when it has fewer
than two tokens in total. -/
def extractParametersAmended (paramString : List Char) : List Parameter :=
  if paramString = [] then []
  else
    (splitOnChar ',' paramString).filterMap fun pair =>
      let parts := fieldsOf (trimSpace pair)
      if 2 ≤ parts.length then
        let k := ((parts.take (parts.length - 2)).takeWhile isModTok).length
        some { Typ := String.mk (parts.getD k []),
               Name := String.mk (parts.getD (k + 1) []) }
      else none

/-- C2 (amended): for every parameter-list string the code's extraction
agrees with the amended description: split on commas, tokenize on
whitespace, drop pieces with fewer than two tokens, skip leading
modifier tokens only among all but the last two tokens, and take the
next two tokens as type and name. -/
theorem extractParameters_skips_only_spare_tokens (paramString : List Char) :
    extractParameters paramString = extractParametersAmended paramString := by
  unfold extractParameters extractParametersAmended
  by_cases h0 : paramString = []
  · simp [h0]
  · rw [if_neg h0, if_neg h0]
    apply List.filterMap_congr
    intro pair _
    set parts := fieldsOf (trimSpace pair) with hparts
    by_cases hlen : 2 ≤ parts.length
    · have := skipMods_eq parts parts.length 0 (by omega)
      simp only [Nat.sub_zero, List.drop_zero, Nat.zero_add] at this
      simp only [if_pos hlen, this]
    · simp [hlen]

/-! ### Lemmas about method filtering (claims C3 and C5) -/

theorem mem_methodsOfMatches {ms : List (String × String × List Char)}
    {m : PublicMethod} (h : m ∈ methodsOfMatches ms) :
    (allowedTypes m.ReturnType).isSome = true ∧
    areParametersValid m.Parameters = true := by
  unfold methodsOfMatches at h
  rcases List.mem_filterMap.mp h with ⟨g, _, hg⟩
  by_cases h1 : (allowedTypes g.1).isSome = true
  · rw [if_pos h1] at hg
    by_cases h2 : areParametersValid (extractParameters g.2.2) = true
    · rw [if_pos h2] at hg
      cases Option.some.inj hg
      exact ⟨h1, h2⟩
    · rw [if_neg h2] at hg
      exact Option.noConfusion hg
  · rw [if_neg h1] at hg
    exact Option.noConfusion hg

theorem getLastError_mem_superclass :
    ({ AccessModifier := "public", ReturnType := "String",
       MethodName := "getLastError", Parameters := [] } : PublicMethod) ∈
      SuperclassMethods := by
  simp [SuperclassMethods]

/-- C3: every method carried by a unit the scan produces has a return
type that is in the allowed-type table or is void; methods with a return
type outside the table are dropped at extraction time and never reach
the stub generator.  (In fact the first disjunct always holds, because
the table has no void entry and the extraction filter consults only the
table; the superclass method getLastError returns String, also in the
table.) -/
theorem returnTypes_allowed_in_units
    (path : String) (fileName content : List Char) (u : ServerSideObject)
    (hu : processFile path fileName content = some u) :
    ∀ m ∈ u.DeclaredMethods,
      (allowedTypes m.ReturnType).isSome = true ∨ m.ReturnType = "void" := by
  intro m hm
  rcases Option.map_eq_some'.mp hu with ⟨cc, _, hbuild⟩
  subst hbuild
  simp only at hm
  rcases List.mem_append.mp hm with hl | hr
  · exact Or.inl (mem_methodsOfMatches hl).1
  · left
    simp only [SuperclassMethods, List.mem_singleton] at hr
    subst hr
    decide

/-- Shared concrete example: a qualifying file with one valid method. -/
def contentGetX : List Char :=
  "public class Test extends ServerSideObject \x7b public int getX() \x7b return 1; \x7d \x7d".toList

/-- The unit that the scan produces for contentGetX. -/
def unitGetX : ServerSideObject :=
  { FilePath := "Test.java", ClassName := "Test", PackageLine := "",
    DeclaredMethods :=
      [{ AccessModifier := "public", ReturnType := "int",
         MethodName := "getX", Parameters := [] },
       { AccessModifier := "public", ReturnType := "String",
         MethodName := "getLastError", Parameters := [] }],
    DeclaredFields := [] }

/-- The getX method record of unitGetX. -/
def methodGetX : PublicMethod :=
  { AccessModifier := "public", ReturnType := "int",
    MethodName := "getX", Parameters := [] }

theorem returnTypes_allowed_in_units_witness :
    (allowedTypes methodGetX.ReturnType).isSome = true ∨
    methodGetX.ReturnType = "void" :=
  returnTypes_allowed_in_units "Test.java" "Test.java".toList contentGetX
    unitGetX (by decide) methodGetX (by decide)

/-- Shared concrete example for parameter validity: a method with a
parameter type outside the table next to a fully valid sibling. -/
def contentBadParam : List Char :=
  ("public class Test extends ServerSideObject \x7b " ++
   "public int bad(Foo f) \x7b return 1; \x7d public int good(int x) \x7b return 2; \x7d \x7d").toList

/-- The stripped class content of contentBadParam. -/
def classContentBadParam : List Char :=
  ("class Test extends ServerSideObject \x7b " ++
   "public int bad(Foo f) \x7b return 1; \x7d public int good(int x) \x7b return 2; \x7d \x7d").toList

/-- The unit that the scan produces for contentBadParam: the method with
the Foo parameter is gone, its sibling and the superclass method are
kept. -/
def unitBadParam : ServerSideObject :=
  { FilePath := "Test.java", ClassName := "Test", PackageLine := "",
    DeclaredMethods :=
      [{ AccessModifier := "public", ReturnType := "int",
         MethodName := "good", Parameters := [{ Typ := "int", Name := "x" }] },
       { AccessModifier := "public", ReturnType := "String",
         MethodName := "getLastError", Parameters := [] }],
    DeclaredFields := [] }

/-- C5: parameter validity is all-or-nothing per method.  Every method in
a produced unit has only allowed parameter types (so a method with any
parameter type outside the table is excluded from the unit and hence
from the stub), and conversely every method match of the stripped class
text whose return type is allowed and whose extracted parameters are all
allowed is retained in the unit. -/
theorem invalidParam_method_excluded_siblings_kept
    (path : String) (fileName content : List Char)
    (u : ServerSideObject) (cc : List Char)
    (hu : processFile path fileName content = some u)
    (hcc : classContentOf fileName content = some cc) :
    (∀ m ∈ u.DeclaredMethods, areParametersValid m.Parameters = true) ∧
    (∀ g ∈ findAllMethods cc, (allowedTypes g.1).isSome = true →
       areParametersValid (extractParameters g.2.2) = true →
       ({ AccessModifier := "public", ReturnType := g.1, MethodName := g.2.1,
          Parameters := extractParameters g.2.2 } : PublicMethod) ∈
         u.DeclaredMethods) := by
  rcases Option.map_eq_some'.mp hu with ⟨cc', hcc', hbuild⟩
  rw [hcc'] at hcc
  cases Option.some.inj hcc
  subst hbuild
  constructor
  · intro m hm
    simp only at hm
    rcases List.mem_append.mp hm with hl | hr
    · exact (mem_methodsOfMatches hl).2
    · simp only [SuperclassMethods, List.mem_singleton] at hr
      subst hr
      decide
  · intro g hg h1 h2
    simp only
    apply List.mem_append_left
    unfold methodsOfMatches
    apply List.mem_filterMap.mpr
    exact ⟨g, hg, by rw [if_pos h1]; simp only [if_pos h2]⟩

theorem invalidParam_method_excluded_siblings_kept_witness :
    (∀ m ∈ unitBadParam.DeclaredMethods,
       areParametersValid m.Parameters = true) ∧
    (∀ g ∈ findAllMethods classContentBadParam,
       (allowedTypes g.1).isSome = true →
       areParametersValid (extractParameters g.2.2) = true →
       ({ AccessModifier := "public", ReturnType := g.1, MethodName := g.2.1,
          Parameters := extractParameters g.2.2 } : PublicMethod) ∈
         unitBadParam.DeclaredMethods) :=
  invalidParam_method_excluded_siblings_kept "Test.java" "Test.java".toList
    contentBadParam unitBadParam classContentBadParam (by decide) (by decide)

/-! ### The superclass augmentation and the stub writer (claims C6, C9, C10) -/

theorem renderMethod_infix_of_mem {m : PublicMethod} :
    ∀ {l : List PublicMethod}, m ∈ l →
      (renderMethod m).data <:+: (renderMethods l).data := by
  intro l
  induction l with
  | nil => intro h; exact absurd h (List.not_mem_nil m)
  | cons a t ih =>
    intro h
    have hdata : (renderMethods (a :: t)).data =
        (renderMethod a).data ++ (renderMethods t).data := by
      rw [renderMethods, String.data_append]
    rcases List.mem_cons.mp h with rfl | ht
    · rw [hdata]
      exact (List.prefix_append _ _).isInfix
    · rw [hdata]
      exact (ih ht).trans (List.suffix_append _ _).isInfix

/-- C6: the fixed superclass method list is appended to the end of every
unit's method list, so every generated stub contains the getLastError
stub, whose text is exactly the String-returning signature with body
return null. -/
theorem superclass_methods_appended
    (path : String) (fileName content : List Char) (u : ServerSideObject)
    (hu : processFile path fileName content = some u) :
    (∃ pre, u.DeclaredMethods = pre ++ SuperclassMethods) ∧
    renderMethod { AccessModifier := "public", ReturnType := "String",
                   MethodName := "getLastError", Parameters := [] } =
      "    public String getLastError() \x7b\n        return null;\n    \x7d\n\n" ∧
    (renderMethod { AccessModifier := "public", ReturnType := "String",
                    MethodName := "getLastError", Parameters := [] }).data <:+:
      (writeSimplifiedSSO u).data := by
  rcases Option.map_eq_some'.mp hu with ⟨cc, _, hbuild⟩
  subst hbuild
  refine ⟨⟨methodsOfMatches (findAllMethods cc), rfl⟩, by decide, ?_⟩
  have hmem :
      ({ AccessModifier := "public", ReturnType := "String",
         MethodName := "getLastError", Parameters := [] } : PublicMethod) ∈
        methodsOfMatches (findAllMethods cc) ++ SuperclassMethods :=
    List.mem_append_right _ getLastError_mem_superclass
  have hinfix := renderMethod_infix_of_mem hmem
  have hW : ∀ sso : ServerSideObject, (writeSimplifiedSSO sso).data =
      ("package " ++ sso.PackageLine ++ ";\n\npublic class " ++ sso.ClassName ++
        " \x7b\n\n    public " ++ sso.ClassName ++ "() \x7b\x7d\n\n").data ++
      (renderMethods sso.DeclaredMethods).data ++ ("\x7d\n" : String).data := by
    intro sso
    simp [writeSimplifiedSSO, String.data_append, List.append_assoc]
  rw [hW]
  refine hinfix.trans ?_
  exact ⟨_, _, rfl⟩

theorem superclass_methods_appended_witness :
    (∃ pre, unitGetX.DeclaredMethods = pre ++ SuperclassMethods) ∧
    renderMethod { AccessModifier := "public", ReturnType := "String",
                   MethodName := "getLastError", Parameters := [] } =
      "    public String getLastError() \x7b\n        return null;\n    \x7d\n\n" ∧
    (renderMethod { AccessModifier := "public", ReturnType := "String",
                    MethodName := "getLastError", Parameters := [] }).data <:+:
      (writeSimplifiedSSO unitGetX).data :=
  superclass_methods_appended "Test.java" "Test.java".toList contentGetX
    unitGetX (by decide)

/-- Shared concrete example for field extraction: a qualifying file with
two public fields and no extractable methods. -/
def contentFields : List Char :=
  ("public class Test extends ServerSideObject \x7b " ++
   "public int count; public static final int MAX = 10; \x7d").toList

/-- The unit the scan produces for contentFields: the two field
signatures are extracted into the unit. -/
def unitFields : ServerSideObject :=
  { FilePath := "Test.java", ClassName := "Test", PackageLine := "",
    DeclaredMethods :=
      [{ AccessModifier := "public", ReturnType := "String",
         MethodName := "getLastError", Parameters := [] }],
    DeclaredFields :=
      [{ Typ := "int", Name := "count" }, { Typ := "int", Name := "MAX" }] }

/-- unitFields with its extracted fields erased, to exhibit the
noninterference of the writer. -/
def unitFieldsErased : ServerSideObject :=
  { unitFields with DeclaredFields := [] }

/-- C9: the generated stub depends only on the class name, the package
name and the method list, never on the extracted public fields: any two
units agreeing on those three attributes produce byte-identical file
content; and the scanner really does extract public field signatures
into the unit, as the concrete run shows. -/
theorem stub_ignores_declared_fields :
    (∀ u₁ u₂ : ServerSideObject, u₁.ClassName = u₂.ClassName →
       u₁.PackageLine = u₂.PackageLine →
       u₁.DeclaredMethods = u₂.DeclaredMethods →
       writeSimplifiedSSO u₁ = writeSimplifiedSSO u₂) ∧
    processFile "Test.java" "Test.java".toList contentFields = some unitFields ∧
    unitFields.DeclaredFields ≠ [] := by
  refine ⟨?_, by decide, by decide⟩
  intro u₁ u₂ h1 h2 h3
  unfold writeSimplifiedSSO
  rw [h1, h2, h3]

theorem stub_ignores_declared_fields_witness :
    writeSimplifiedSSO unitFields = writeSimplifiedSSO unitFieldsErased :=
  stub_ignores_declared_fields.1 unitFields unitFieldsErased rfl rfl rfl

/-- C10: when the scanned text contains no package declaration the unit
carries the empty package name, and the writer still emits the package
statement unconditionally, so the first line of the generated file is
exactly the text package-space-semicolon. -/
theorem missing_package_emits_empty_package
    (path : String) (fileName content : List Char) (u : ServerSideObject)
    (hu : processFile path fileName content = some u)
    (hnp : findPackage (normalize content) = none) :
    u.PackageLine = "" ∧
    (writeSimplifiedSSO u).data.takeWhile (fun c => c != '\n') =
      "package ;".toList := by
  rcases Option.map_eq_some'.mp hu with ⟨cc, _, hbuild⟩
  subst hbuild
  constructor
  · simp [hnp]
  · simp only [hnp]
    unfold writeSimplifiedSSO
    simp only [Option.getD_none]
    have hassoc : ("package " ++ "" ++ ";\n\n" : String) = "package ;\n\n" := by decide
    rw [show ∀ s₁ s₂ s₃ s₄ s₅ s₆ s₇ s₈ : String,
          "package " ++ "" ++ ";\n\n" ++ s₁ ++ s₂ ++ s₃ ++ s₄ ++ s₅ ++ s₆ ++ s₇ ++ s₈ =
          "package ;\n\n" ++ (s₁ ++ s₂ ++ s₃ ++ s₄ ++ s₅ ++ s₆ ++ s₇ ++ s₈)
        from fun s₁ s₂ s₃ s₄ s₅ s₆ s₇ s₈ => by
          rw [hassoc]
          simp [String.append_assoc]]
    rw [String.data_append]
    have hpk : ("package ;\n\n" : String).data =
        'p' :: 'a' :: 'c' :: 'k' :: 'a' :: 'g' :: 'e' :: ' ' :: ';' :: '\n' :: '\n' :: [] := rfl
    rw [hpk]
    simp [List.takeWhile_cons]

theorem missing_package_emits_empty_package_witness :
    unitGetX.PackageLine = "" ∧
    (writeSimplifiedSSO unitGetX).data.takeWhile (fun c => c != '\n') =
      "package ;".toList :=
  missing_package_emits_empty_package "Test.java" "Test.java".toList contentGetX
    unitGetX (by decide) (by decide)

/-! ### The round-trip literal property and the missing void case (claim C1) -/

/-- The failing input for C1: a qualifying class with a void method and
two value-returning methods. -/
def contentVoid : List Char :=
  ("public class Test extends ServerSideObject \x7b " ++
   "public void reset() \x7b \x7d public int getX() \x7b return 5; \x7d " ++
   "public boolean isY() \x7b return true; \x7d \x7d").toList

/-- The unit the scan produces for contentVoid: reset is gone. -/
def unitVoid : ServerSideObject :=
  { FilePath := "Test.java", ClassName := "Test", PackageLine := "",
    DeclaredMethods :=
      [{ AccessModifier := "public", ReturnType := "int",
         MethodName := "getX", Parameters := [] },
       { AccessModifier := "public", ReturnType := "boolean",
         MethodName := "isY", Parameters := [] },
       { AccessModifier := "public", ReturnType := "String",
         MethodName := "getLastError", Parameters := [] }],
    DeclaredFields := [] }

/-- C1: the non-void halves of the round-trip literal property hold (int
yields return 0 and boolean yields return false, the table's literals),
but the void half fails on the code: the allowed-type table has no void
entry and the extraction filter consults only the table, so public void
reset() is dropped at extraction and no stub for it is generated — even
though the stub writer carries an explicit empty-body branch for void
methods, which extraction makes unreachable. -/
theorem voidMethod_dropped_despite_writer_void_branch :
    processFile "Test.java" "Test.java".toList contentVoid = some unitVoid ∧
    unitVoid.DeclaredMethods.map PublicMethod.MethodName =
      ["getX", "isY", "getLastError"] ∧
    ("return 0;".toList <:+: (writeSimplifiedSSO unitVoid).data) ∧
    ("return false;".toList <:+: (writeSimplifiedSSO unitVoid).data) ∧
    ¬ ("reset".toList <:+: (writeSimplifiedSSO unitVoid).data) ∧
    allowedTypes "void" = none ∧
    renderMethod { AccessModifier := "public", ReturnType := "void",
                   MethodName := "reset", Parameters := [] } =
      "    public void reset() \x7b\n    \x7d\n\n" := by
  refine ⟨by decide, by decide, by decide, by decide, by decide, by decide, by decide⟩

/-! ### Private-class stripping (claim C4) -/

/-- Raw brace balance check: running over the characters with the given
starting depth, the depth never goes negative and ends at zero.  Brace
characters inside string or character literals count like any other. -/
def braceOK : Int → List Char → Bool
  | d, [] => d == 0
  | d, c :: l =>
    let d' := d + (if c = '{' then 1 else if c = '}' then -1 else 0)
    decide (0 ≤ d') && braceOK d' l

theorem braceScan_of_braceOK :
    ∀ (body : List Char) (d : Int) (n : Nat) (rest : List Char), 0 ≤ d →
      (n : Int) = d + 1 → braceOK d body = true →
      braceScan n (body ++ '}' :: rest) = some (body.length + 1) := by
  intro body
  induction body with
  | nil =>
    intro d n rest hd hn hok
    have hd0 : d = 0 := by
      simpa [braceOK] using hok
    subst hd0
    have hn1 : n = 1 := by omega
    subst hn1
    simp [braceScan]
  | cons c body' ih =>
    intro d n rest hd hn hok
    simp only [braceOK, Bool.and_eq_true, decide_eq_true_eq] at hok
    obtain ⟨hd', hok'⟩ := hok
    have hn1 : 1 ≤ n := by omega
    obtain ⟨m, rfl⟩ : ∃ m, n = m + 1 := ⟨n - 1, by omega⟩
    simp only [List.cons_append, braceScan]
    set d' := d + (if c = '{' then 1 else if c = '}' then -1 else 0) with hdEq
    have harg :
        (if c = '{' then m + 2 else if c = '}' then m else m + 1 : Nat) =
          (d' + 1).toNat := by
      by_cases h1 : c = '{'
      · simp only [hdEq, if_pos h1]
        omega
      · by_cases h2 : c = '}'
        · simp only [hdEq, if_neg h1, if_pos h2]
          omega
        · simp only [hdEq, if_neg h1, if_neg h2]
          omega
    simp only [List.append_eq]
    rw [harg, ih d' (d' + 1).toNat rest hd' (by omega) hok']
    simp [Nat.add_comm, Nat.add_assoc]

theorem braceInLit : '{' ∉ privateClassLit := by decide

theorem removeStepEq (l : List Char) (s rel k : Nat)
    (h1 : findSub privateClassLit l = some s)
    (h2 : findSub ['{'] (l.drop s) = some rel)
    (h3 : braceScan 1 (l.drop (s + rel + 1)) = some k) :
    removeStep l = some (l.take s ++ l.drop (s + rel + 1 + k)) := by
  simp only [removeStep, h1, h2, h3]

theorem findSub_singleton_append {c : Char} :
    ∀ (l₁ l₂ : List Char), c ∉ l₁ →
      findSub [c] (l₁ ++ c :: l₂) = some l₁.length := by
  intro l₁
  induction l₁ with
  | nil =>
    intro l₂ _
    have : [c].isPrefixOf (c :: l₂) = true := by
      simp [List.isPrefixOf]
    simp [findSub, this]
  | cons a t ih =>
    intro l₂ hmem
    have hac : ¬ a = c := fun h => hmem (h ▸ List.mem_cons_self a t)
    have hnp : [c].isPrefixOf (a :: (t ++ c :: l₂)) = false := by
      simp [List.isPrefixOf, hac]
      intro h
      exact absurd h.symm hac
    have hmem' : c ∉ t := fun h => hmem (List.mem_cons_of_mem a h)
    simp only [List.cons_append, findSub, List.append_eq]
    rw [hnp]
    simp only [Bool.false_eq_true, if_false,
      ih l₂ hmem', Option.map_some', List.length_cons]

/-- The concrete C4 counterexample input: the nested private class
contains a string literal holding a closing brace, which the raw
depth-count treats as structural, so the scan stops early and the
nested method text survives. -/
def contentLitBrace : List Char :=
  ("public class Test extends ServerSideObject \x7b private class Helper \x7b " ++
   "String s = \"\x7d\"; public int secret() \x7b return 1; \x7d \x7d \x7d").toList

/-- The unit the scan produces for contentLitBrace: secret leaks out of
the nested private class. -/
def unitLitBrace : ServerSideObject :=
  { FilePath := "Test.java", ClassName := "Test", PackageLine := "",
    DeclaredMethods :=
      [{ AccessModifier := "public", ReturnType := "int",
         MethodName := "secret", Parameters := [] },
       { AccessModifier := "public", ReturnType := "String",
         MethodName := "getLastError", Parameters := [] }],
    DeclaredFields := [] }

/-- The counterexample to C4 as stated: a qualifying class with a nested
declaration of the form private class Helper braces-content-braces whose
body holds a closing brace inside a string literal; the method secret
declared in the nested private class body reaches the extracted method
list and the generated stub. -/
theorem literalBrace_leaks_nested_method :
    processFile "Test.java" "Test.java".toList contentLitBrace = some unitLitBrace ∧
    "secret" ∈ unitLitBrace.DeclaredMethods.map PublicMethod.MethodName ∧
    ("secret".toList <:+: (writeSimplifiedSSO unitLitBrace).data) := by
  refine ⟨by decide, by decide, by decide⟩

/-- The well-behaved nested private class example: no brace characters
in literals, so the whole declaration is removed and secret never
appears. -/
def contentHelper : List Char :=
  ("public class Test extends ServerSideObject \x7b private class Helper \x7b " ++
   "public int secret() \x7b return 1; \x7d \x7d public int getX() \x7b return 2; \x7d \x7d").toList

/-- C4 (amended): the stripper removes each nested private class from
its header through the raw depth-matched closing brace, where depth
counts every brace character, including those inside string or
character literals.  Whenever the braces of the nested body balance as
raw characters, one removal step deletes exactly the span from the
needle through the matched closing brace; in particular, on the
qualifying class containing private class Helper with the secret method
and no brace-bearing literals, no secret method appears in the unit or
in the generated stub. -/
theorem stripper_removes_depth_matched_span :
    (∀ pre hdr body rest : List Char,
       findSub privateClassLit
           (pre ++ privateClassLit ++ hdr ++ '{' :: body ++ '}' :: rest) =
         some pre.length →
       '{' ∉ hdr → braceOK 0 body = true →
       removeStep (pre ++ privateClassLit ++ hdr ++ '{' :: body ++ '}' :: rest) =
         some (pre ++ rest)) ∧
    processFile "Test.java" "Test.java".toList contentHelper = some unitGetX ∧
    ¬ ("secret".toList <:+: (writeSimplifiedSSO unitGetX).data) := by
  refine ⟨?_, by decide, by decide⟩
  intro pre hdr body rest h1 h2 hok
  set input := pre ++ privateClassLit ++ hdr ++ '{' :: body ++ '}' :: rest with hinput
  have hdrop1 : input.drop pre.length =
      privateClassLit ++ hdr ++ '{' :: body ++ '}' :: rest := by
    conv_lhs => rw [hinput, List.append_assoc, List.append_assoc,
      List.append_assoc, List.drop_left]
    simp [List.append_assoc]
  have hnob : '{' ∉ privateClassLit ++ hdr := by
    intro h
    rcases List.mem_append.mp h with h | h
    · exact braceInLit h
    · exact h2 h
  have hfind2 : findSub ['{'] (input.drop pre.length) =
      some (privateClassLit ++ hdr).length := by
    rw [hdrop1]
    have := findSub_singleton_append (c := '{') (privateClassLit ++ hdr)
      (body ++ '}' :: rest) hnob
    simpa [List.append_assoc] using this
  have hdrop2 : input.drop (pre.length + (privateClassLit ++ hdr).length + 1) =
      body ++ '}' :: rest := by
    have hshape : input =
        (pre ++ privateClassLit ++ hdr ++ ['{']) ++ (body ++ '}' :: rest) := by
      rw [hinput]
      simp [List.append_assoc]
    have hlen : (pre ++ privateClassLit ++ hdr ++ ['{']).length =
        pre.length + (privateClassLit ++ hdr).length + 1 := by
      simp [List.length_append]
      omega
    rw [hshape, ← hlen, List.drop_left]
  have hscan : braceScan 1
      (input.drop (pre.length + (privateClassLit ++ hdr).length + 1)) =
      some (body.length + 1) := by
    rw [hdrop2]
    exact braceScan_of_braceOK body 0 1 rest le_rfl (by norm_num) hok
  have hstep := removeStepEq input pre.length (privateClassLit ++ hdr).length
    (body.length + 1) h1 hfind2 hscan
  have htake : input.take pre.length = pre := by
    conv_lhs => rw [hinput, List.append_assoc, List.append_assoc,
      List.append_assoc, List.take_left]
  have hdrop3 : input.drop
      (pre.length + (privateClassLit ++ hdr).length + 1 + (body.length + 1)) =
      rest := by
    have hshape : input =
        (pre ++ privateClassLit ++ hdr ++ '{' :: body ++ ['}']) ++ rest := by
      rw [hinput]
      simp [List.append_assoc]
    have hlen : (pre ++ privateClassLit ++ hdr ++ '{' :: body ++ ['}']).length =
        pre.length + (privateClassLit ++ hdr).length + 1 + (body.length + 1) := by
      simp [List.length_append]
      omega
    rw [hshape, ← hlen, List.drop_left]
  rw [hstep, htake, hdrop3]

theorem stripper_removes_depth_matched_span_witness :
    removeStep ("x ".toList ++ privateClassLit ++ "H ".toList ++
        '{' :: " a ".toList ++ '}' :: " y".toList) =
      some ("x ".toList ++ " y".toList) :=
  stripper_removes_depth_matched_span.1 "x ".toList "H ".toList
    " a ".toList " y".toList (by decide) (by decide) (by decide)

/-! ### Output ordering (claim C7) -/

/-- Two qualifying files in different directories sharing the base name
A.java, with different contents. -/
def fileDupA1 : String × List Char × List Char :=
  ("d1/A.java", "A.java".toList,
   "public class A extends ServerSideObject \x7b public int getX() \x7b return 1; \x7d \x7d".toList)

/-- The sibling duplicate-name file. -/
def fileDupA2 : String × List Char × List Char :=
  ("d2/A.java", "A.java".toList,
   "public class A extends ServerSideObject \x7b \x7d".toList)

/-- The counterexample to C7 as stated: the two traversal orders visit
the same set of files, yet the returned unit lists differ (the two units
share the class name A, and the stable sort leaves equal keys in
traversal order). -/
theorem duplicate_classNames_order_depends_on_traversal :
    ([fileDupA1, fileDupA2] : List (String × List Char × List Char)).Perm
        [fileDupA2, fileDupA1] ∧
    scanForSSOs [fileDupA1, fileDupA2] ≠ scanForSSOs [fileDupA2, fileDupA1] := by
  constructor
  · exact List.Perm.swap _ _ _
  · decide

/-- C7 (amended): the returned unit list is always sorted
lexicographically by class name before any stub is written; and for two
traversal orders visiting the same set of files the returned lists are
identical provided the discovered units carry pairwise distinct class
names (files in different directories sharing a base name yield
identically-named units whose relative order follows traversal order). -/
theorem scan_sorted_and_deterministic :
    (∀ files : List (String × List Char × List Char),
       (scanForSSOs files).Sorted byClassName) ∧
    (∀ files₁ files₂ : List (String × List Char × List Char),
       files₁.Perm files₂ →
       ((files₁.filterMap fun f => processFile f.1 f.2.1 f.2.2).map
           ServerSideObject.ClassName).Nodup →
       scanForSSOs files₁ = scanForSSOs files₂) := by
  constructor
  · intro files
    exact List.sorted_insertionSort byClassName _
  · intro files₁ files₂ hperm hnodup
    unfold scanForSSOs
    set u₁ := files₁.filterMap fun f => processFile f.1 f.2.1 f.2.2 with hu₁
    set u₂ := files₂.filterMap fun f => processFile f.1 f.2.1 f.2.2 with hu₂
    have hp : u₁.Perm u₂ := hperm.filterMap _
    have hps : (List.insertionSort byClassName u₁).Perm
        (List.insertionSort byClassName u₂) :=
      ((List.perm_insertionSort byClassName u₁).trans hp).trans
        (List.perm_insertionSort byClassName u₂).symm
    have hnodup₁ : ((List.insertionSort byClassName u₁).map
        ServerSideObject.ClassName).Nodup :=
      (((List.perm_insertionSort byClassName u₁).map
          ServerSideObject.ClassName).nodup_iff).mpr hnodup
    have hnodup₂ : ((List.insertionSort byClassName u₂).map
        ServerSideObject.ClassName).Nodup := by
      refine (((List.perm_insertionSort byClassName u₂).map
          ServerSideObject.ClassName).nodup_iff).mpr ?_
      exact ((hp.map ServerSideObject.ClassName).nodup_iff).mp hnodup
    have hstrict : ∀ (l : List ServerSideObject), l.Sorted byClassName →
        (l.map ServerSideObject.ClassName).Nodup →
        l.Pairwise fun a b => byClassName a b ∧ a.ClassName ≠ b.ClassName := by
      intro l hs hn
      have hne : l.Pairwise fun a b => a.ClassName ≠ b.ClassName :=
        List.pairwise_map.mp hn
      exact hs.and hne
    have hlt₁ := hstrict _ (List.sorted_insertionSort byClassName u₁) hnodup₁
    have hlt₂ := hstrict _ (List.sorted_insertionSort byClassName u₂) hnodup₂
    haveI : IsAntisymm ServerSideObject
        (fun a b => byClassName a b ∧ a.ClassName ≠ b.ClassName) :=
      ⟨fun a b h1 h2 => by
        have hdata := listLe_antisymm _ _ h1.1 h2.1
        exact absurd (String.ext hdata) h1.2⟩
    exact List.eq_of_perm_of_sorted hps hlt₁ hlt₂

/-- Two qualifying files with distinct class names, for the witness. -/
def fileDistinctA : String × List Char × List Char :=
  ("d1/A.java", "A.java".toList,
   "public class A extends ServerSideObject \x7b \x7d".toList)

/-- The second distinct-name file. -/
def fileDistinctB : String × List Char × List Char :=
  ("d2/B.java", "B.java".toList,
   "public class B extends ServerSideObject \x7b \x7d".toList)

theorem scan_sorted_and_deterministic_witness :
    (scanForSSOs [fileDistinctB, fileDistinctA]).Sorted byClassName ∧
    scanForSSOs [fileDistinctB, fileDistinctA] =
      scanForSSOs [fileDistinctA, fileDistinctB] :=
  ⟨scan_sorted_and_deterministic.1 [fileDistinctB, fileDistinctA],
   scan_sorted_and_deterministic.2 [fileDistinctB, fileDistinctA]
     [fileDistinctA, fileDistinctB] (List.Perm.swap _ _ _) (by decide)⟩

end SSO
